import Mathlib

/-!
Verification of the sqldef repository (icedac/sqldef): a shallow embedding of
the pure logic of `adapter/mssql/mssql.go` (table dependency ordering, DDL
rendering, column length rendering, table name splitting, view post-processing
and index collection) and of `cmd/mysqldef/mysqldef.go` (`parseOptions`),
followed by theorems settling the specification claims.

Go machine integers appear only as slice indices and lengths, modelled by
`Nat`; `strconv.Atoi` is modelled over unbounded `Int` (the sizes involved are
column byte lengths, far below the `int64` overflow threshold that would make
`Atoi` return an error).
-/

/-! ## mssql.go: basic helpers -/

/-- The `indent` constant of mssql.go. -/
def indent : String := "    "

/-- Models `splitTableName` (mssql.go lines 644-652): `strings.SplitN(table,
".", 2)` splits at the first `.`; with no `.` the schema defaults to `dbo`. -/
def splitTableName (table : String) : String × String :=
  let cs := table.toList
  let beforeDot := cs.takeWhile (fun c => c ≠ '.')
  if beforeDot.length = cs.length then ("dbo", table)
  else (beforeDot.asString, (cs.drop (beforeDot.length + 1)).asString)

/-- Models `strconv.Atoi`: an optional sign followed by a non-empty digit
string; anything else is an error (`none`). Overflow is not modelled. -/
def atoi (s : String) : Option Int :=
  let cs := s.toList
  match cs with
  | [] => none
  | c :: rest =>
    let signDigits : Int × List Char :=
      if c = '-' then (-1, rest) else if c = '+' then (1, rest) else (1, cs)
    if signDigits.2 = [] then none
    else if signDigits.2.all Char.isDigit then
      some (signDigits.1 *
        (signDigits.2.foldl (fun acc d => acc * 10 + (d.toNat - '0'.toNat)) 0 : Nat))
    else none

/-! ## mssql.go: column model and length rendering -/

/-- The `identity` struct of mssql.go. -/
structure identity where
  SeedValue : String
  IncrementValue : String
  NotForReplication : Bool
deriving DecidableEq

/-- The `check` struct of mssql.go. -/
structure check where
  Name : String
  Definition : String
  NotForReplication : Bool
deriving DecidableEq

/-- The `column` struct of mssql.go (fields in source order). -/
structure column where
  Name : String
  dataType : String
  MaxLength : String
  Scale : String
  Nullable : Bool
  Identity : Option identity
  DefaultName : String
  DefaultVal : String
  Check : Option check
deriving DecidableEq

/-- Models the method `(c column) getLength() (string, bool)` of mssql.go
(lines 282-305). Go's `/` on int truncates toward zero, hence `Int.tdiv`. -/
def column.getLength (c : column) : Option String :=
  if c.dataType = "char" ∨ c.dataType = "varchar" ∨ c.dataType = "binary" ∨
      c.dataType = "varbinary" then
    if c.MaxLength = "-1" then some "max" else some c.MaxLength
  else if c.dataType = "nvarchar" ∨ c.dataType = "nchar" then
    if c.MaxLength = "-1" then some "max"
    else
      match atoi c.MaxLength with
      | none => none
      | some n => some (toString (Int.tdiv n 2))
  else if c.dataType = "datetimeoffset" then
    if c.Scale = "7" then none else some c.Scale
  else none

/-! ## mssql.go: reserved keywords and safe column names

The keyword table comes from `sqlparser.Keywords()`, which is outside the two
source files; it is threaded through as a parameter `keywords`. -/

/-- Models `strings.ToLower`, character by character. -/
def toLowerStr (s : String) : String := (s.toList.map Char.toLower).asString

/-- Models the `init()` of mssql.go: the global `reservedKeywords` map holds
every keyword of the parser's keyword table, lowercased. Modelled from the
spec for the missing `sqlparser.Keywords()` collaborator: "reserved keywords
(as defined by a dialect keyword table)". -/
def reservedKeywords (keywords : List String) : List String :=
  keywords.map (fun k => toLowerStr k)

/-- Models `getSafeColumnName` (mssql.go lines 29-34): a name whose lowercase
form is in the reserved keyword map is wrapped in square brackets. -/
def getSafeColumnName (keywords : List String) (name : String) : String :=
  if toLowerStr name ∈ reservedKeywords keywords then "[" ++ name ++ "]" else name

/-! ## mssql.go: index model -/

/-- The `indexOption` struct of mssql.go. -/
structure indexOption where
  name : String
  value : String
deriving DecidableEq

/-- The `indexDef` struct of mssql.go (fields in source order). -/
structure indexDef where
  name : String
  columns : List String
  primary : Bool
  unique : Bool
  indexType : String
  included : List String
  options : List indexOption
deriving DecidableEq

/-- Models `boolToOnOff` (mssql.go lines 546-552). -/
def boolToOnOff (b : Bool) : String := if b then "ON" else "OFF"

/-! ## mssql.go: buildDumpTableDDL rendering

`buildDumpTableDDL` (lines 134-268) writes into a single string builder; each
loop below becomes a list-to-string rendering function, concatenated in the
source's order.  A loop with `continue` guards becomes `filter` + `map`. -/

/-- Concatenation of a list of strings, in order (a sequence of
`fmt.Fprint` calls into the builder). -/
def strConcat : List String → String
  | [] => ""
  | s :: rest => s ++ strConcat rest

/-- Models `strings.Join(l, ", ")`. -/
def joinComma (l : List String) : String :=
  match l with
  | [] => ""
  | s :: rest => s ++ strConcat (rest.map (fun t => ", " ++ t))

/-- The ` WITH ( ... )` option block appended after an index (lines 183-192,
220-230, 254-263): printed only when the option list is non-empty; entry `i`
is prefixed with `,` when `i > 0` and always with a space. -/
def withOptions (opts : List indexOption) : String :=
  match opts with
  | [] => ""
  | o :: rest =>
    " WITH (" ++ (" " ++ o.name ++ " = " ++ o.value) ++
      strConcat (rest.map (fun o2 => "," ++ (" " ++ o2.name ++ " = " ++ o2.value))) ++ " )"

/-- The optional ` CLUSTERED` / ` NONCLUSTERED` fragment (lines 179-181,
214-216, 247-249). -/
def typePart (d : indexDef) : String :=
  if d.indexType = "CLUSTERED" ∨ d.indexType = "NONCLUSTERED" then " " ++ d.indexType
  else ""

/-- Everything one column entry of the CREATE TABLE body prints after the
(safe) column name (loop body, lines 146-168). -/
def columnDefRest (col : column) : String :=
  " " ++ col.dataType ++
  (match col.getLength with
   | some l => "(" ++ l ++ ")"
   | none => "") ++
  (if col.Nullable then "" else " NOT NULL") ++
  (if col.DefaultName ≠ "" then
    " CONSTRAINT " ++ col.DefaultName ++ " DEFAULT " ++ col.DefaultVal
   else "") ++
  (match col.Identity with
   | some idn =>
     " IDENTITY(" ++ idn.SeedValue ++ "," ++ idn.IncrementValue ++ ")" ++
       (if idn.NotForReplication then " NOT FOR REPLICATION" else "")
   | none => "") ++
  (match col.Check with
   | some ch =>
     " CONSTRAINT [" ++ ch.Name ++ "] CHECK" ++
       (if ch.NotForReplication then " NOT FOR REPLICATION" else "") ++ " " ++ ch.Definition
   | none => "")

/-- One column entry of the CREATE TABLE body (loop body, lines 137-168),
without the leading separator: the safe column name followed by the rest. -/
def columnDef (keywords : List String) (col : column) : String :=
  getSafeColumnName keywords col.Name ++ columnDefRest col

/-- The column list of the CREATE TABLE body: entry `i > 0` is preceded by a
comma, every entry by a newline and the indent (lines 137-141). -/
def columnsSection (keywords : List String) (cols : List column) : String :=
  match cols with
  | [] => ""
  | c :: rest =>
    "\n" ++ indent ++ columnDef keywords c ++
      strConcat (rest.map (fun c2 => ",\n" ++ indent ++ columnDef keywords c2))

/-- One PRIMARY KEY constraint line (loop body, lines 172-193). -/
def pkDef (d : indexDef) : String :=
  ",\n" ++ indent ++ ("CONSTRAINT [" ++ d.name ++ "] PRIMARY KEY") ++ typePart d ++
    " (" ++ joinComma d.columns ++ ")" ++ withOptions d.options

/-- One foreign key line (loop body, lines 195-198). -/
def fkDef (v : String) : String := ",\n" ++ indent ++ v

/-- One inline (non-primary, no INCLUDE columns) index line (loop body,
lines 200-231). -/
def inlineIndexDef (d : indexDef) : String :=
  ",\n" ++ indent ++ ("INDEX [" ++ d.name ++ "]") ++
    (if d.unique then " UNIQUE" else "") ++ typePart d ++
    " (" ++ joinComma d.columns ++ ")" ++ withOptions d.options

/-- One separate CREATE INDEX statement for an index with INCLUDE columns
(loop body, lines 236-265), emitted after the CREATE TABLE statement. -/
def includedIndexDef (table : String) (d : indexDef) : String :=
  "\nCREATE" ++ (if d.unique then " UNIQUE" else "") ++ typePart d ++
    (" INDEX [" ++ d.name ++ "] ON ") ++ table ++ " (" ++ joinComma d.columns ++ ")" ++
    (if d.included ≠ [] then " INCLUDE (" ++ joinComma d.included ++ ")" else "") ++
    withOptions d.options ++ ";"

/-- The complete CREATE TABLE statement (everything `buildDumpTableDDL` writes
up to and including `"\n);\n"`, lines 136-233): columns, then PRIMARY KEY
constraints, then foreign keys, then inline indexes (non-primary indexes
without INCLUDE columns). -/
def createTableStmt (keywords : List String) (table : String) (cols : List column)
    (indexDefs : List indexDef) (foreignDefs : List String) : String :=
  "CREATE TABLE " ++ table ++ " (" ++ columnsSection keywords cols ++
    strConcat ((indexDefs.filter (fun d => d.primary)).map pkDef) ++
    strConcat (foreignDefs.map fkDef) ++
    strConcat ((indexDefs.filter (fun d => !d.primary && d.included.isEmpty)).map inlineIndexDef) ++
    "\n);\n"

/-- The separate CREATE INDEX statements appended after the CREATE TABLE
statement (lines 236-265): non-primary indexes with INCLUDE columns. -/
def includedIndexSection (table : String) (indexDefs : List indexDef) : String :=
  strConcat ((indexDefs.filter (fun d => !d.included.isEmpty && !d.primary)).map
    (includedIndexDef table))

/-- Models `strings.TrimSuffix(s, "\n")`: drops one trailing newline. -/
def trimSuffixNewline (s : String) : String :=
  if s.toList.getLast? = some '\n' then s.toList.dropLast.asString else s

/-- Models `buildDumpTableDDL` (mssql.go lines 134-268). -/
def buildDumpTableDDL (keywords : List String) (table : String) (cols : List column)
    (indexDefs : List indexDef) (foreignDefs : List String) : String :=
  trimSuffixNewline
    (createTableStmt keywords table cols indexDefs foreignDefs ++
      includedIndexSection table indexDefs)

/-! ## mssql.go: TableNames dependency ordering (lines 84-115)

The double loop is embedded with an explicit fuel argument so that the
function is structurally recursive (hence kernel-evaluable).  The fuel is a
sound bound on the loop's own termination measure: the inner loop decreases
`tables.length - i` at every step, the outer loop removes at least one table
per pass or stops, so `tables.length` passes suffice.  When the fuel is at
least the measure the fueled function computes exactly what the Go loop does;
all theorems are stated about the wrappers that supply sufficient fuel. -/

/-- The `noDeps` check of the inner loop (lines 90-97): every referenced
table is already in `addedTables`. -/
def noDeps (added : List String) (deps : List String) : Bool :=
  deps.all (fun d => decide (d ∈ added))

/-- The removal step `tables[i] = tables[len(tables)-1]; tables =
tables[:len(tables)-1]` (lines 101-102): overwrite position `i` with the last
element, then drop the last element. -/
def swapRemove (l : List String) (i : Nat) : List String :=
  (l.set i (l.getLastD "")).dropLast

/-- Result of the ordering loops: the remaining `tables`, the
`dependencyOrderedTables` built so far, and the `addedTables` key set. -/
structure OrderAcc where
  tables : List String
  ordered : List String
  added : List String
deriving DecidableEq

/-- The inner loop of `TableNames` (lines 88-106), fueled. -/
def innerLoopGo (fMap : String → List String) :
    Nat → List String → Nat → List String → List String → OrderAcc
  | 0, tables, _, ordered, added => ⟨tables, ordered, added⟩
  | fuel + 1, tables, i, ordered, added =>
    if h : i < tables.length then
      let tableName := tables[i]
      if noDeps added (fMap tableName) then
        innerLoopGo fMap fuel (swapRemove tables i) i (ordered ++ [tableName])
          (tableName :: added)
      else
        innerLoopGo fMap fuel tables (i + 1) ordered added
    else ⟨tables, ordered, added⟩

/-- The inner loop of `TableNames` with sufficient fuel. -/
def innerLoop (fMap : String → List String) (tables : List String) (i : Nat)
    (ordered added : List String) : OrderAcc :=
  innerLoopGo fMap (tables.length - i) tables i ordered added

/-- The outer loop of `TableNames` (lines 86-110), fueled: loop while tables
remain, break when a full pass makes no progress. -/
def outerLoopGo (fMap : String → List String) :
    Nat → List String → List String → List String → OrderAcc
  | 0, tables, ordered, added => ⟨tables, ordered, added⟩
  | fuel + 1, tables, ordered, added =>
    if tables.length = 0 then ⟨tables, ordered, added⟩
    else
      let acc := innerLoop fMap tables 0 ordered added
      if tables.length = acc.tables.length then acc
      else outerLoopGo fMap fuel acc.tables acc.ordered acc.added

/-- The dependency ordering pass of `TableNames` (lines 84-110) starting from
empty accumulators, with sufficient fuel. -/
def dependencyOrderTables (fMap : String → List String) (tables : List String) : OrderAcc :=
  outerLoopGo fMap tables.length tables [] []

/-- Models the list returned by `TableNames` (lines 84-115) as a function of
the table list read from the backend and the foreign-key map built by
`getForeignDefs`: the dependency-ordered tables followed by the leftover
(cyclic) tables (line 113). -/
def tableNamesOrder (fMap : String → List String) (tables : List String) : List String :=
  (dependencyOrderTables fMap tables).ordered ++ (dependencyOrderTables fMap tables).tables

/-- `depOrderedB fMap seen l` holds when every element of `l` references only
tables that occur before it in `l` or in `seen` (scanning left to right). -/
def depOrderedB (fMap : String → List String) : List String → List String → Bool
  | _, [] => true
  | seen, x :: rest =>
    (fMap x).all (fun d => decide (d ∈ seen)) && depOrderedB fMap (x :: seen) rest

/-! ## mssql.go: getIndexDefs (lines 403-501)

The two row scans are embedded as functions of the row lists the backend
returns.  The Go `map[string]*indexDef` is modelled as an association list in
insertion order; iteration order of a Go map is unspecified, but the function
sorts the collected values by name before returning (lines 495-498), so with
pairwise-distinct index names the returned list does not depend on it.
`sort.Slice` is an unstable sort; it is modelled by an insertion sort, which
produces the same result whenever the keys are pairwise distinct.  Writing a
column row whose index name is absent from the map dereferences a nil pointer
in Go (a panic), modelled by `none`. -/

/-- One row of the first index query (index attributes). -/
structure indexRow where
  name : String
  isPrimary : Bool
  isUnique : Bool
  typeDesc : String
  padIndex : Bool
  fillfactor : String
  ignoreDupKey : Bool
  noRecompute : Bool
  incremental : Bool
  rowLocks : Bool
  pageLocks : Bool
deriving DecidableEq

/-- One row of the second index query (index column membership). -/
structure indexColRow where
  indexName : String
  columnName : String
  isDescending : Bool
  isIncluded : Bool
deriving DecidableEq

/-- The option list built for one index row (lines 435-447): six fixed
options plus FILLFACTOR when it is not "0". -/
def rowOptions (r : indexRow) : List indexOption :=
  [⟨"PAD_INDEX", boolToOnOff r.padIndex⟩,
   ⟨"IGNORE_DUP_KEY", boolToOnOff r.ignoreDupKey⟩,
   ⟨"STATISTICS_NORECOMPUTE", boolToOnOff r.noRecompute⟩,
   ⟨"STATISTICS_INCREMENTAL", boolToOnOff r.incremental⟩,
   ⟨"ALLOW_ROW_LOCKS", boolToOnOff r.rowLocks⟩,
   ⟨"ALLOW_PAGE_LOCKS", boolToOnOff r.pageLocks⟩] ++
  (if r.fillfactor ≠ "0" then [⟨"FILLFACTOR", r.fillfactor⟩] else [])

/-- The `indexDef` created for one index row (line 449). -/
def initIndexDef (r : indexRow) : indexDef :=
  ⟨r.name, [], r.isPrimary, r.isUnique, r.typeDesc, [], rowOptions r⟩

/-- Go map write `indexDefMap[k] = v`: replace the binding when the key is
present, otherwise add it. -/
def upsertIndexDef (m : List (String × indexDef)) (k : String) (v : indexDef) :
    List (String × indexDef) :=
  if m.any (fun e => e.1 = k) then m.map (fun e => if e.1 = k then (k, v) else e)
  else m ++ [(k, v)]

/-- The first row scan (lines 429-451): build `indexDefMap`. -/
def buildIndexDefMap (rows : List indexRow) : List (String × indexDef) :=
  rows.foldl (fun m r => upsertIndexDef m r.name (initIndexDef r)) []

/-- The per-row update of the second scan (lines 472-488): append
`"[column]"` to the included list, or (with an optional " DESC") to the key
column list. -/
def addIndexColumn (d : indexDef) (r : indexColRow) : indexDef :=
  let columnDefinition := "[" ++ r.columnName ++ "]"
  if r.isIncluded then { d with included := d.included ++ [columnDefinition] }
  else
    let columnDefinition :=
      if r.isDescending then columnDefinition ++ " DESC" else columnDefinition
    { d with columns := d.columns ++ [columnDefinition] }

/-- The second row scan (lines 472-488): update the mapped index for each
column row; a row naming an unknown index is a nil map entry dereference in
Go, modelled as `none`. -/
def applyIndexColRows (m : List (String × indexDef)) :
    List indexColRow → Option (List (String × indexDef))
  | [] => some m
  | r :: rest =>
    if m.any (fun e => e.1 = r.indexName) then
      applyIndexColRows
        (m.map (fun e => if e.1 = r.indexName then (e.1, addIndexColumn e.2 r) else e)) rest
    else none

/-- Insert an index def into a name-sorted list. -/
def insertByName (d : indexDef) : List indexDef → List indexDef
  | [] => [d]
  | e :: rest => if d.name < e.name then d :: e :: rest else e :: insertByName d rest

/-- The final sort by index name (lines 490-498). -/
def sortByName (l : List indexDef) : List indexDef := l.foldr insertByName []

/-- Models `getIndexDefs` (mssql.go lines 403-501) as a function of the rows
returned by its two queries. -/
def getIndexDefs (rows : List indexRow) (colRows : List indexColRow) :
    Option (List indexDef) :=
  (applyIndexColRows (buildIndexDefMap rows) colRows).map
    (fun m => sortByName (m.map (fun e => e.2)))

/-! ## mssql.go: Views (lines 554-592) and Triggers (lines 594-617) -/

/-- `unicode.IsSpace` on the characters `strings.TrimSpace` can trim
(Latin-1 range: space, tab, newline, vertical tab, form feed, carriage
return, NEL, NBSP). -/
def goIsSpace (c : Char) : Bool :=
  c = ' ' || c = '\t' || c = '\n' || c = '\x0b' || c = '\x0c' || c = '\r' ||
    c.toNat = 133 || c.toNat = 160

/-- Models `strings.TrimSpace`: drop leading and trailing white space. -/
def trimSpace (l : List Char) : List Char :=
  ((l.dropWhile goIsSpace).reverse.dropWhile goIsSpace).reverse

/-- Models `strings.ReplaceAll(s, "\n", "")`: every occurrence of the
one-character pattern is deleted. -/
def removeNewlines (l : List Char) : List Char := l.filter (fun c => c ≠ '\n')

/-- Models `suffixSemicolon.ReplaceAllString(s, "")` for the anchored pattern
`;$` (line 555): it can match only the final character, so at most one
trailing semicolon is removed. -/
def stripOneTrailingSemicolon (l : List Char) : List Char :=
  if l.getLast? = some ';' then l.dropLast else l

/-- Models `spaces.ReplaceAllString(s, " ")` for the pattern `[ ]+`
(line 556): every maximal run of spaces becomes a single space. -/
def collapseSpaces : List Char → List Char
  | [] => []
  | [c] => [c]
  | c1 :: c2 :: rest =>
    if c1 = ' ' && c2 = ' ' then collapseSpaces (c2 :: rest)
    else c1 :: collapseSpaces (c2 :: rest)

/-- The per-row post-processing of `Views` (lines 585-589): trim, strip
newlines, strip one trailing semicolon, collapse spaces, append ";". -/
def processViewDef (definition : String) : String :=
  (collapseSpaces (stripOneTrailingSemicolon (removeNewlines
    (trimSpace definition.toList))) ++ [';']).asString

/-- Models `Views` (mssql.go lines 559-592) as a function of the
(name, definition) rows the backend returns, in backend row order. -/
def Views (rows : List (String × String)) : List String :=
  rows.map (fun r => processViewDef r.2)

/-- Models `Triggers` (mssql.go lines 594-617): the scanned definitions are
returned unchanged, in backend row order. -/
def Triggers (rows : List String) : List String := rows

/-- `true` when the list ends with a semicolon that is not preceded by
another semicolon ("exactly one trailing semicolon"). -/
def endsWithSingleSemicolon (l : List Char) : Bool :=
  (l.getLast? == some ';') && !(l.dropLast.getLast? == some ';')

/-- `true` when no two consecutive spaces occur in the list. -/
def noDoubleSpace : List Char → Bool
  | c1 :: c2 :: rest => !(c1 = ' ' && c2 = ' ') && noDoubleSpace (c2 :: rest)
  | _ => true

/-! ## Substring occurrence (used to state where DDL fragments appear) -/

/-- `listStartsWith s pat`: `pat` is an initial run of `s`. -/
def listStartsWith : List Char → List Char → Bool
  | _, [] => true
  | [], _ :: _ => false
  | c :: cs, p :: ps => c = p && listStartsWith cs ps

/-- `listHasSegment s pat`: `pat` occurs contiguously somewhere in `s`. -/
def listHasSegment : List Char → List Char → Bool
  | [], pat => listStartsWith [] pat
  | c :: cs, pat => listStartsWith (c :: cs) pat || listHasSegment cs pat

/-- `strSegment whole seg`: `seg` occurs contiguously in `whole`. -/
def strSegment (whole seg : String) : Prop :=
  ∃ s t : String, whole = s ++ seg ++ t

/-! ## mysqldef.go: parseOptions (lines 22-103)

Flag parsing itself is done by the external go-flags library; the embedding
starts from the parsed flag record.  The terminal read of
`--password-prompt` is modelled by the `promptInput` parameter, and the
`MYSQL_PWD` environment lookup by the `mysqlPwd` parameter (`none` when the
variable is unset).  `os.Exit(code)` is modelled by `ParseResult.exit code`. -/

/-- The parsed flag record of `parseOptions` (mysqldef.go lines 23-37).
`exportFlag` renders the Go field `Export` (a Lean keyword). -/
structure GoOptions where
  user : String
  password : String
  host : String
  port : Nat
  socket : String
  prompt : Bool
  enableCleartextPlugin : Bool
  file : List String
  dryRun : Bool
  exportFlag : Bool
  skipDrop : Bool
  help : Bool
  version : Bool
deriving DecidableEq

/-- The `adapter.Config` struct (fields used by mysqldef.go lines 93-101). -/
structure Config where
  dbName : String
  user : String
  password : String
  host : String
  port : Nat
  socket : String
  mySQLEnableCleartextPlugin : Bool
deriving DecidableEq

/-- The `sqldef.Options` struct (fields set by mysqldef.go lines 57-63). -/
structure SqldefOptions where
  desiredFile : String
  currentFile : List String
  dryRun : Bool
  exportFlag : Bool
  skipDrop : Bool
deriving DecidableEq

/-- Outcome of `parseOptions`: either the process exits with a code, or a
config and options are returned. -/
inductive ParseResult where
  | exit (code : Nat)
  | ok (config : Config) (options : SqldefOptions)
deriving DecidableEq

/-- Modelled from the spec: `sqldef.ParseFiles` is outside the two source
files; per the spec the `--file` flag is "repeatable with first entry
desired, remainder current", so the first entry is the desired-schema file
and the remaining entries are the current-schema files. -/
def ParseFiles (files : List String) : String × List String :=
  (files.headD "", files.tail)

/-- Models `parseOptions` (mysqldef.go lines 22-103) after flag parsing:
`--help` and `--version` exit 0; with no current-schema file a missing or
ambiguous positional database name exits 1; `MYSQL_PWD` overrides
`--password`; `--password-prompt` overrides both. -/
def parseOptions (opts : GoOptions) (args : List String) (mysqlPwd : Option String)
    (promptInput : String) : ParseResult :=
  if opts.help then ParseResult.exit 0
  else if opts.version then ParseResult.exit 0
  else
    let fileSplit := ParseFiles opts.file
    let currentFile := fileSplit.2
    let options : SqldefOptions :=
      ⟨fileSplit.1, currentFile, opts.dryRun, opts.exportFlag, opts.skipDrop⟩
    if currentFile.length = 0 ∧ args.length = 0 then ParseResult.exit 1
    else if currentFile.length = 0 ∧ 1 < args.length then ParseResult.exit 1
    else
      let database := if currentFile.length = 0 then args.headD "" else ""
      let envPassword :=
        match mysqlPwd with
        | some p => p
        | none => opts.password
      let password := if opts.prompt then promptInput else envPassword
      ParseResult.ok
        ⟨database, opts.user, password, opts.host, opts.port, opts.socket,
          opts.enableCleartextPlugin⟩ options

/-! ## Theorems: helper lemmas -/

/-- `takeWhile` keeps a list all of whose elements satisfy the predicate. -/
theorem takeWhile_all_eq {p : Char → Bool} :
    ∀ l : List Char, (∀ x ∈ l, p x = true) → l.takeWhile p = l
  | [], _ => rfl
  | x :: l, h => by
    have hx : p x = true := h x (List.mem_cons_self x l)
    simp only [List.takeWhile, hx]
    exact congrArg (x :: ·) (takeWhile_all_eq l (fun y hy => h y (List.mem_cons_of_mem x hy)))

/-- `takeWhile` stops exactly at the first failing element. -/
theorem takeWhile_append_stop {p : Char → Bool} :
    ∀ (a : List Char) (c : Char) (b : List Char),
      (∀ x ∈ a, p x = true) → p c = false → (a ++ c :: b).takeWhile p = a
  | [], c, b, _, hc => by simp [List.takeWhile, hc]
  | x :: a, c, b, ha, hc => by
    have hx : p x = true := ha x (List.mem_cons_self x a)
    simp only [List.cons_append, List.takeWhile, hx]
    exact congrArg (x :: ·)
      (takeWhile_append_stop a c b (fun y hy => ha y (List.mem_cons_of_mem x hy)) hc)

/-! ## C7: splitTableName -/

/-- C7: `splitTableName` returns the SQL Server default schema `dbo` paired
with the whole string when the string contains no `.`, and otherwise splits
at the first `.` into the schema and the remainder. -/
theorem splitTableName_spec (table : String) (a b : List Char)
    (hnodot : '.' ∉ table.toList) (hadot : '.' ∉ a) :
    splitTableName table = ("dbo", table) ∧
    splitTableName (List.asString (a ++ '.' :: b)) = (List.asString a, List.asString b) := by
  constructor
  · have h1 : table.toList.takeWhile (fun c => decide (c ≠ '.')) = table.toList :=
      takeWhile_all_eq _ (fun x hx => by
        simp only [decide_eq_true_eq]
        intro he
        exact hnodot (he ▸ hx))
    simp only [splitTableName]
    rw [h1]
    simp
  · have hlist : (List.asString (a ++ '.' :: b)).toList = a ++ '.' :: b := rfl
    have h1 : (a ++ '.' :: b).takeWhile (fun c => decide (c ≠ '.')) = a :=
      takeWhile_append_stop a '.' b
        (fun x hx => by
          simp only [decide_eq_true_eq]
          intro he
          exact hadot (he ▸ hx))
        (by simp)
    have hlen : ¬ a.length = (a ++ '.' :: b).length := by
      simp only [List.length_append, List.length_cons]
      omega
    have hdrop : (a ++ '.' :: b).drop (a.length + 1) = b := by
      have h2 : a ++ '.' :: b = (a ++ ['.']) ++ b := by simp
      have h3 : a.length + 1 = (a ++ ['.']).length := by simp
      rw [h2, h3, List.drop_left]
    simp only [splitTableName]
    rw [hlist, h1, if_neg hlen, hdrop]

/-- Witness for C7 at concrete inputs. -/
theorem splitTableName_spec_witness :
    splitTableName "users" = ("dbo", "users") ∧
    splitTableName (List.asString ("abc".toList ++ '.' :: "users.x".toList)) =
      (List.asString "abc".toList, List.asString "users.x".toList) :=
  splitTableName_spec "users" "abc".toList "users.x".toList (by decide) (by decide)

/-! ## C9: getLength -/

/-- C9: `getLength` reports a length only for char, varchar, binary,
varbinary, nvarchar, nchar and datetimeoffset; for the six (max_length)-typed
kinds a stored max_length of -1 renders as "max"; for nvarchar and nchar the
rendered length is the stored byte length divided by two (Go integer
division); and for datetimeoffset with scale 7 no length is rendered. -/
theorem getLength_spec (c : column) :
    (c.getLength.isSome = true →
      c.dataType ∈ ["char", "varchar", "binary", "varbinary", "nvarchar", "nchar",
        "datetimeoffset"]) ∧
    (c.dataType ∈ ["char", "varchar", "binary", "varbinary", "nvarchar", "nchar"] →
      c.MaxLength = "-1" → c.getLength = some "max") ∧
    (c.dataType ∈ ["nvarchar", "nchar"] → c.MaxLength ≠ "-1" →
      c.getLength = (atoi c.MaxLength).map (fun n => toString (Int.tdiv n 2))) ∧
    (c.dataType = "datetimeoffset" → c.Scale = "7" → c.getLength = none) := by
  refine ⟨?_, ?_, ?_, ?_⟩
  · intro hsome
    by_cases h1 : c.dataType = "char" ∨ c.dataType = "varchar" ∨ c.dataType = "binary" ∨
        c.dataType = "varbinary"
    · rcases h1 with h | h | h | h <;> simp [h]
    · by_cases h2 : c.dataType = "nvarchar" ∨ c.dataType = "nchar"
      · rcases h2 with h | h <;> simp [h]
      · by_cases h3 : c.dataType = "datetimeoffset"
        · simp [h3]
        · exfalso
          simp [column.getLength, h1, h2, h3] at hsome
  · intro hmem hml
    rcases (by simpa using hmem :
        c.dataType = "char" ∨ c.dataType = "varchar" ∨ c.dataType = "binary" ∨
          c.dataType = "varbinary" ∨ c.dataType = "nvarchar" ∨ c.dataType = "nchar") with
      h | h | h | h | h | h <;> simp [column.getLength, h, hml]
  · intro hmem hne
    rcases (by simpa using hmem : c.dataType = "nvarchar" ∨ c.dataType = "nchar") with
      h | h <;>
      · simp only [column.getLength, h]
        norm_num
        cases atoi c.MaxLength <;> simp [hne]
  · intro h1 h2
    simp [column.getLength, h1, h2]

/-- Witness for C9: one concrete column per scenario. -/
theorem getLength_spec_witness :
    column.getLength ⟨"a", "varchar", "-1", "0", true, none, "", "", none⟩ = some "max" ∧
    column.getLength ⟨"a", "nvarchar", "21", "0", true, none, "", "", none⟩ =
      (atoi "21").map (fun n => toString (Int.tdiv n 2)) ∧
    column.getLength ⟨"a", "datetimeoffset", "10", "7", true, none, "", "", none⟩ = none ∧
    "char" ∈ ["char", "varchar", "binary", "varbinary", "nvarchar", "nchar",
      "datetimeoffset"] :=
  ⟨(getLength_spec ⟨"a", "varchar", "-1", "0", true, none, "", "", none⟩).2.1 (by decide) rfl,
   (getLength_spec ⟨"a", "nvarchar", "21", "0", true, none, "", "", none⟩).2.2.1 (by decide)
     (by decide),
   (getLength_spec ⟨"a", "datetimeoffset", "10", "7", true, none, "", "", none⟩).2.2.2 rfl rfl,
   (getLength_spec ⟨"a", "char", "5", "0", true, none, "", "", none⟩).1 (by decide)⟩

/-! ## C4: reserved keywords are quoted -/

/-- C4: a column whose name is a reserved keyword of the dialect keyword
table (compared case-insensitively) is emitted wrapped in square brackets:
`getSafeColumnName` quotes it, and the column's CREATE TABLE entry starts
with the bracketed name. -/
theorem getSafeColumnName_quotes_reserved (keywords : List String) (col : column)
    (h : toLowerStr col.Name ∈ reservedKeywords keywords) :
    getSafeColumnName keywords col.Name = "[" ++ col.Name ++ "]" ∧
    ∃ rest : String, columnDef keywords col = "[" ++ col.Name ++ "]" ++ rest := by
  have h1 : getSafeColumnName keywords col.Name = "[" ++ col.Name ++ "]" := by
    simp [getSafeColumnName, h]
  exact ⟨h1, columnDefRest col, by rw [columnDef, h1]⟩

/-- Witness for C4: the keyword `SELECT` quotes the column name `Select`. -/
theorem getSafeColumnName_quotes_reserved_witness :
    getSafeColumnName ["SELECT"] "Select" = "[" ++ "Select" ++ "]" ∧
    ∃ rest : String,
      columnDef ["SELECT"] ⟨"Select", "int", "4", "0", true, none, "", "", none⟩ =
        "[" ++ "Select" ++ "]" ++ rest :=
  getSafeColumnName_quotes_reserved ["SELECT"]
    ⟨"Select", "int", "4", "0", true, none, "", "", none⟩ (by decide)

/-! ## C5: parseOptions usage errors and exit codes -/

/-- C5: when no `--file` entry supplies the current schema, a missing
positional database name or more than one positional argument exits with
code 1, `--help` and `--version` exit with code 0, and otherwise the config's
DbName is the single positional argument. -/
theorem parseOptions_usage_exit (opts : GoOptions) (args : List String)
    (mysqlPwd : Option String) (promptInput : String)
    (hcur : (ParseFiles opts.file).2 = []) :
    (opts.help = true → parseOptions opts args mysqlPwd promptInput = ParseResult.exit 0) ∧
    (opts.help = false → opts.version = true →
      parseOptions opts args mysqlPwd promptInput = ParseResult.exit 0) ∧
    (opts.help = false → opts.version = false → args = [] →
      parseOptions opts args mysqlPwd promptInput = ParseResult.exit 1) ∧
    (opts.help = false → opts.version = false → 1 < args.length →
      parseOptions opts args mysqlPwd promptInput = ParseResult.exit 1) ∧
    (∀ db, opts.help = false → opts.version = false → args = [db] →
      ∃ config options, parseOptions opts args mysqlPwd promptInput =
        ParseResult.ok config options ∧ config.dbName = db) := by
  refine ⟨?_, ?_, ?_, ?_, ?_⟩
  · intro hh
    simp [parseOptions, hh]
  · intro hh hv
    simp [parseOptions, hh, hv]
  · intro hh hv hargs
    subst hargs
    simp [parseOptions, hh, hv, hcur]
  · intro hh hv hlen
    have hne : ¬ args.length = 0 := by omega
    simp [parseOptions, hh, hv, hcur, hne, hlen]
  · intro db hh hv hargs
    subst hargs
    simp [parseOptions, hh, hv, hcur]

/-- Witness for C5: default flags, one positional vs none. -/
theorem parseOptions_usage_exit_witness :
    parseOptions ⟨"root", "", "127.0.0.1", 3306, "", false, false, ["-"], false, false,
        false, false, false⟩ [] none "" = ParseResult.exit 1 ∧
    (∃ config options,
      parseOptions ⟨"root", "", "127.0.0.1", 3306, "", false, false, ["-"], false, false,
          false, false, false⟩ ["mydb"] none "" = ParseResult.ok config options ∧
        config.dbName = "mydb") :=
  ⟨(parseOptions_usage_exit _ [] none "" (by decide)).2.2.1 rfl rfl rfl,
   (parseOptions_usage_exit _ ["mydb"] none "" (by decide)).2.2.2.2 "mydb" rfl rfl rfl⟩

/-! ## C6: MYSQL_PWD vs --password vs --password-prompt -/

/-- C6 counterexample: with `--password-prompt` set, the config password is
the prompted input even though `MYSQL_PWD` is set, so the claim as stated
(the environment variable always wins) is false. -/
theorem parseOptions_prompt_overrides_env :
    parseOptions ⟨"root", "flagpw", "127.0.0.1", 3306, "", true, false, ["-"], false, false,
        false, false, false⟩ ["mydb"] (some "envpw") "typedpw" =
      ParseResult.ok ⟨"mydb", "root", "typedpw", "127.0.0.1", 3306, "", false⟩
        ⟨"-", [], false, false, false⟩ ∧
    "typedpw" ≠ "envpw" :=
  ⟨rfl, by decide⟩

/-- C6 (amended): when `--password-prompt` is not given, the password of the
config produced by `parseOptions` is the value of `MYSQL_PWD` when that
variable is set, and the `--password` flag's value otherwise. -/
theorem parseOptions_env_password (opts : GoOptions) (args : List String)
    (mysqlPwd : Option String) (promptInput : String) (config : Config)
    (options : SqldefOptions) (hprompt : opts.prompt = false)
    (hok : parseOptions opts args mysqlPwd promptInput = ParseResult.ok config options) :
    config.password = mysqlPwd.getD opts.password := by
  simp only [parseOptions] at hok
  split_ifs at hok with h1 h2 h3 h4 h5 h6 h7
  all_goals cases hok
  all_goals cases mysqlPwd <;> simp_all

/-- Witness for C6 (amended) at a concrete run with `MYSQL_PWD` set. -/
theorem parseOptions_env_password_witness :
    (⟨"mydb", "root", "envpw", "127.0.0.1", 3306, "", false⟩ : Config).password =
      (some "envpw").getD "flagpw" :=
  parseOptions_env_password
    ⟨"root", "flagpw", "127.0.0.1", 3306, "", false, false, ["-"], false, false, false,
      false, false⟩ ["mydb"] (some "envpw") "" _ _ rfl rfl

/-! ## C10: shape of the strings returned by Views -/

/-- Collapsing spaces does not change the first character. -/
theorem collapseSpaces_head? (l : List Char) : (collapseSpaces l).head? = l.head? := by
  induction l using collapseSpaces.induct with
  | case1 => rfl
  | case2 c => rfl
  | case3 c1 c2 rest h ih =>
    simp only [collapseSpaces, h, if_true]
    rw [ih]
    simp only [Bool.and_eq_true, decide_eq_true_eq] at h
    simp [h.1, h.2]
  | case4 c1 c2 rest h ih => simp [collapseSpaces, h]

/-- Every character of the space-collapsed list is in the original list. -/
theorem collapseSpaces_mem : ∀ (l : List Char) (c : Char), c ∈ collapseSpaces l → c ∈ l := by
  intro l
  induction l using collapseSpaces.induct with
  | case1 => simp [collapseSpaces]
  | case2 c => simp [collapseSpaces]
  | case3 c1 c2 rest h ih =>
    intro c hc
    simp only [collapseSpaces, h, if_true] at hc
    exact List.mem_cons_of_mem _ (ih c hc)
  | case4 c1 c2 rest h ih =>
    intro c hc
    simp only [collapseSpaces, h, if_false] at hc
    cases List.mem_cons.mp hc with
    | inl h1 =>
      rw [h1]
      exact List.mem_cons_self ..
    | inr h1 => exact List.mem_cons_of_mem _ (ih c h1)

/-- The space-collapsed list has no two consecutive spaces. -/
theorem noDoubleSpace_collapseSpaces (l : List Char) :
    noDoubleSpace (collapseSpaces l) = true := by
  induction l using collapseSpaces.induct with
  | case1 => rfl
  | case2 c => rfl
  | case3 c1 c2 rest h ih => simpa [collapseSpaces, h] using ih
  | case4 c1 c2 rest h ih =>
    simp only [collapseSpaces, h, if_false]
    have hh := collapseSpaces_head? (c2 :: rest)
    cases hcl : collapseSpaces (c2 :: rest) with
    | nil => rfl
    | cons x xs =>
      rw [hcl] at hh ih
      have hx : x = c2 := by simpa using hh
      subst hx
      simp only [noDoubleSpace, Bool.and_eq_true]
      refine ⟨?_, ih⟩
      simp at h ⊢
      tauto

/-- Appending a non-space character preserves the no-double-space property. -/
theorem noDoubleSpace_append_single :
    ∀ (l : List Char) (c : Char), c ≠ ' ' →
      noDoubleSpace l = true → noDoubleSpace (l ++ [c]) = true
  | [], c, _, _ => rfl
  | [x], c, hc, _ => by simp [noDoubleSpace, hc]
  | x :: y :: rest, c, hc, h => by
    simp only [noDoubleSpace, Bool.and_eq_true] at h
    simp only [List.cons_append, noDoubleSpace, Bool.and_eq_true]
    exact ⟨h.1, noDoubleSpace_append_single (y :: rest) c hc h.2⟩

/-- Stripping the trailing semicolon only removes characters. -/
theorem stripOneTrailingSemicolon_subset (l : List Char) (c : Char)
    (hc : c ∈ stripOneTrailingSemicolon l) : c ∈ l := by
  unfold stripOneTrailingSemicolon at hc
  split at hc
  · exact (List.dropLast_sublist l).subset hc
  · exact hc

/-- C10 counterexample: a view definition already ending in two semicolons is
returned ending in two semicolons, so "exactly one trailing semicolon" fails:
the regex `;$` strips only one before a semicolon is re-appended. -/
theorem views_double_semicolon :
    Views [("v", "SELECT 1;;")] = ["SELECT 1;;"] ∧
    endsWithSingleSemicolon ("SELECT 1;;".toList) = false := by
  exact ⟨by decide, by decide⟩

/-- C10 (amended): every string returned by Views ends with a semicolon
(possibly preceded by further semicolons from the stored definition),
contains no newline character, and contains no two consecutive spaces. -/
theorem views_output_shape (rows : List (String × String)) (s : String)
    (hs : s ∈ Views rows) :
    s.toList.getLast? = some ';' ∧ (∀ c ∈ s.toList, c ≠ '\n') ∧
      noDoubleSpace s.toList = true := by
  rcases List.mem_map.mp hs with ⟨r, _, rfl⟩
  have hlist : (processViewDef r.2).toList =
      collapseSpaces (stripOneTrailingSemicolon (removeNewlines (trimSpace r.2.toList))) ++
        [';'] := rfl
  refine ⟨?_, ?_, ?_⟩
  · rw [hlist]
    exact List.getLast?_concat _
  · rw [hlist]
    intro c hc
    rcases List.mem_append.mp hc with hc | hc
    · have hc2 := collapseSpaces_mem _ c hc
      have hc3 := stripOneTrailingSemicolon_subset _ c hc2
      have hc4 := List.mem_filter.mp hc3
      simpa using hc4.2
    · have : c = ';' := by simpa using hc
      subst this
      decide
  · rw [hlist]
    exact noDoubleSpace_append_single _ ';' (by decide) (noDoubleSpace_collapseSpaces _)

/-- Witness for C10 (amended): a double space is collapsed and a semicolon
appended. -/
theorem views_output_shape_witness :
    ("SELECT 1;".toList.getLast? = some ';') ∧ (∀ c ∈ "SELECT 1;".toList, c ≠ '\n') ∧
      noDoubleSpace "SELECT 1;".toList = true :=
  views_output_shape [("v", "SELECT  1")] "SELECT 1;" (by decide)

/-! ## C3 counterexample: Views output follows backend row order -/

/-- C3 counterexample: two backend orderings of the same multiset of view
rows give different Views results, so the adapter's query methods are not all
caller-sorted. -/
theorem views_row_order_dependent :
    List.Perm [("a", "A"), ("b", "B")] [("b", "B"), ("a", "A")] ∧
    Views [("a", "A"), ("b", "B")] ≠ Views [("b", "B"), ("a", "A")] :=
  ⟨by decide, by decide⟩

/-! ## C2: placement of indexes and foreign keys in DumpTableDDL output -/

/-- A member of a string list occurs contiguously in the concatenation. -/
theorem strConcat_decomp {x : String} :
    ∀ {l : List String}, x ∈ l → ∃ s t : String, strConcat l = s ++ x ++ t := by
  intro l
  induction l with
  | nil => intro h; cases h
  | cons a rest ih =>
    intro h
    cases List.mem_cons.mp h with
    | inl h1 =>
      refine ⟨"", strConcat rest, ?_⟩
      rw [h1]
      simp [strConcat]
    | inr h1 =>
      rcases ih h1 with ⟨s, t, heq⟩
      exact ⟨a ++ s, t, by simp [strConcat, heq, String.append_assoc]⟩

/-- Occurring in a middle piece means occurring in the whole. -/
theorem strSegment_trans {o m x : String} (ho : strSegment o m) (hm : strSegment m x) :
    strSegment o x := by
  rcases ho with ⟨s1, t1, rfl⟩
  rcases hm with ⟨s2, t2, rfl⟩
  exact ⟨s1 ++ s2, t2 ++ t1, by simp [String.append_assoc]⟩

/-- C2 counterexample: a non-primary index with INCLUDE columns is not
emitted inside the CREATE TABLE statement (the text before the first `;`)
but as a separate CREATE INDEX statement after it, so "all indexes inline"
is false. -/
theorem buildDumpTableDDL_included_not_inline :
    listHasSegment
      ((buildDumpTableDDL [] "dbo.t" [⟨"a", "int", "4", "0", true, none, "", "", none⟩]
          [⟨"idx1", ["[a]"], false, false, "NONCLUSTERED", ["[b]"], []⟩] []).toList.takeWhile
        (fun c => c ≠ ';'))
      ("INDEX [idx1]".toList) = false ∧
    listHasSegment
      (buildDumpTableDDL [] "dbo.t" [⟨"a", "int", "4", "0", true, none, "", "", none⟩]
        [⟨"idx1", ["[a]"], false, false, "NONCLUSTERED", ["[b]"], []⟩] []).toList
      ("INDEX [idx1]".toList) = true :=
  ⟨by decide, by decide⟩

/-- C2 (amended): the DumpTableDDL output is the CREATE TABLE statement
followed by separate CREATE INDEX statements; every foreign key, every
PRIMARY KEY constraint and every non-primary index without INCLUDE columns
appears inside the CREATE TABLE statement, while every non-primary index
with INCLUDE columns appears in the appended CREATE INDEX statements. -/
theorem buildDumpTableDDL_placement (keywords : List String) (table : String)
    (cols : List column) (indexDefs : List indexDef) (foreignDefs : List String) :
    buildDumpTableDDL keywords table cols indexDefs foreignDefs =
      trimSuffixNewline (createTableStmt keywords table cols indexDefs foreignDefs ++
        includedIndexSection table indexDefs) ∧
    (∀ v ∈ foreignDefs,
      strSegment (createTableStmt keywords table cols indexDefs foreignDefs) v) ∧
    (∀ d ∈ indexDefs, d.primary = true →
      strSegment (createTableStmt keywords table cols indexDefs foreignDefs)
        ("CONSTRAINT [" ++ d.name ++ "] PRIMARY KEY")) ∧
    (∀ d ∈ indexDefs, d.primary = false → d.included = [] →
      strSegment (createTableStmt keywords table cols indexDefs foreignDefs)
        ("INDEX [" ++ d.name ++ "]")) ∧
    (∀ d ∈ indexDefs, d.primary = false → d.included ≠ [] →
      strSegment (includedIndexSection table indexDefs)
        (" INDEX [" ++ d.name ++ "] ON " ++ table)) := by
  refine ⟨rfl, ?_, ?_, ?_, ?_⟩
  · intro v hv
    have hsec : strSegment (createTableStmt keywords table cols indexDefs foreignDefs)
        (strConcat (foreignDefs.map fkDef)) :=
      ⟨"CREATE TABLE " ++ table ++ " (" ++ columnsSection keywords cols ++
          strConcat ((indexDefs.filter (fun d => d.primary)).map pkDef),
        strConcat ((indexDefs.filter (fun d => !d.primary && d.included.isEmpty)).map
          inlineIndexDef) ++ "\n);\n",
        by simp [createTableStmt, String.append_assoc]⟩
    have hitem : strSegment (strConcat (foreignDefs.map fkDef)) (fkDef v) :=
      strConcat_decomp (List.mem_map_of_mem fkDef hv)
    have hx : strSegment (fkDef v) v :=
      ⟨",\n" ++ indent, "", by simp [fkDef, String.append_assoc]⟩
    exact strSegment_trans (strSegment_trans hsec hitem) hx
  · intro d hd hp
    have hsec : strSegment (createTableStmt keywords table cols indexDefs foreignDefs)
        (strConcat ((indexDefs.filter (fun d => d.primary)).map pkDef)) :=
      ⟨"CREATE TABLE " ++ table ++ " (" ++ columnsSection keywords cols,
        strConcat (foreignDefs.map fkDef) ++
          strConcat ((indexDefs.filter (fun d => !d.primary && d.included.isEmpty)).map
            inlineIndexDef) ++ "\n);\n",
        by simp [createTableStmt, String.append_assoc]⟩
    have hmem : d ∈ indexDefs.filter (fun d => d.primary) :=
      List.mem_filter.mpr ⟨hd, by simp [hp]⟩
    have hitem : strSegment (strConcat ((indexDefs.filter (fun d => d.primary)).map pkDef))
        (pkDef d) :=
      strConcat_decomp (List.mem_map_of_mem pkDef hmem)
    have hx : strSegment (pkDef d) ("CONSTRAINT [" ++ d.name ++ "] PRIMARY KEY") :=
      ⟨",\n" ++ indent,
        typePart d ++ (" (" ++ (joinComma d.columns ++ (")" ++ withOptions d.options))),
        by simp [pkDef, String.append_assoc]⟩
    exact strSegment_trans (strSegment_trans hsec hitem) hx
  · intro d hd hp hincl
    have hsec : strSegment (createTableStmt keywords table cols indexDefs foreignDefs)
        (strConcat ((indexDefs.filter (fun d => !d.primary && d.included.isEmpty)).map
          inlineIndexDef)) :=
      ⟨"CREATE TABLE " ++ table ++ " (" ++ columnsSection keywords cols ++
          strConcat ((indexDefs.filter (fun d => d.primary)).map pkDef) ++
          strConcat (foreignDefs.map fkDef),
        "\n);\n",
        by simp [createTableStmt, String.append_assoc]⟩
    have hmem : d ∈ indexDefs.filter (fun d => !d.primary && d.included.isEmpty) :=
      List.mem_filter.mpr ⟨hd, by simp [hp, hincl]⟩
    have hitem : strSegment
        (strConcat ((indexDefs.filter (fun d => !d.primary && d.included.isEmpty)).map
          inlineIndexDef)) (inlineIndexDef d) :=
      strConcat_decomp (List.mem_map_of_mem inlineIndexDef hmem)
    have hx : strSegment (inlineIndexDef d) ("INDEX [" ++ d.name ++ "]") :=
      ⟨",\n" ++ indent,
        (if d.unique then " UNIQUE" else "") ++
          (typePart d ++ (" (" ++ (joinComma d.columns ++ (")" ++ withOptions d.options)))),
        by simp [inlineIndexDef, String.append_assoc]⟩
    exact strSegment_trans (strSegment_trans hsec hitem) hx
  · intro d hd hp hincl
    have hmem : d ∈ indexDefs.filter (fun d => !d.included.isEmpty && !d.primary) :=
      List.mem_filter.mpr ⟨hd, by simp [hp, hincl]⟩
    have hitem : strSegment (includedIndexSection table indexDefs)
        (includedIndexDef table d) :=
      strConcat_decomp (List.mem_map_of_mem (includedIndexDef table) hmem)
    have hx : strSegment (includedIndexDef table d)
        (" INDEX [" ++ d.name ++ "] ON " ++ table) :=
      ⟨"\nCREATE" ++ ((if d.unique then " UNIQUE" else "") ++ typePart d),
        " (" ++ (joinComma d.columns ++ (")" ++
          ((if d.included ≠ [] then " INCLUDE (" ++ joinComma d.included ++ ")" else "") ++
            (withOptions d.options ++ ";")))),
        by simp [includedIndexDef, String.append_assoc]⟩
    exact strSegment_trans hitem hx

/-- Witness for C2 (amended) at a concrete table with a primary key, an
INCLUDE index and a foreign key. -/
theorem buildDumpTableDDL_placement_witness :
    strSegment
      (createTableStmt [] "dbo.t" []
        [⟨"pk1", ["[id]"], true, true, "CLUSTERED", [], []⟩,
         ⟨"ix1", ["[a]"], false, false, "NONCLUSTERED", ["[b]"], []⟩] ["FK1"]) "FK1" ∧
    strSegment
      (createTableStmt [] "dbo.t" []
        [⟨"pk1", ["[id]"], true, true, "CLUSTERED", [], []⟩,
         ⟨"ix1", ["[a]"], false, false, "NONCLUSTERED", ["[b]"], []⟩] ["FK1"])
      ("CONSTRAINT [" ++ "pk1" ++ "] PRIMARY KEY") ∧
    strSegment
      (includedIndexSection "dbo.t"
        [⟨"pk1", ["[id]"], true, true, "CLUSTERED", [], []⟩,
         ⟨"ix1", ["[a]"], false, false, "NONCLUSTERED", ["[b]"], []⟩])
      (" INDEX [" ++ "ix1" ++ "] ON " ++ "dbo.t") :=
  ⟨(buildDumpTableDDL_placement [] "dbo.t" []
      [⟨"pk1", ["[id]"], true, true, "CLUSTERED", [], []⟩,
       ⟨"ix1", ["[a]"], false, false, "NONCLUSTERED", ["[b]"], []⟩] ["FK1"]).2.1 "FK1"
      (by decide),
   (buildDumpTableDDL_placement [] "dbo.t" []
      [⟨"pk1", ["[id]"], true, true, "CLUSTERED", [], []⟩,
       ⟨"ix1", ["[a]"], false, false, "NONCLUSTERED", ["[b]"], []⟩] ["FK1"]).2.2.1
      ⟨"pk1", ["[id]"], true, true, "CLUSTERED", [], []⟩ (by decide) rfl,
   (buildDumpTableDDL_placement [] "dbo.t" []
      [⟨"pk1", ["[id]"], true, true, "CLUSTERED", [], []⟩,
       ⟨"ix1", ["[a]"], false, false, "NONCLUSTERED", ["[b]"], []⟩] ["FK1"]).2.2.2.2
      ⟨"ix1", ["[a]"], false, false, "NONCLUSTERED", ["[b]"], []⟩ (by decide) rfl (by decide)⟩

/-! ## C1 and C8: the TableNames dependency ordering loop -/

/-- The swap-remove step always shortens the list by one. -/
theorem swapRemove_length (l : List String) (i : Nat) :
    (swapRemove l i).length = l.length - 1 := by
  simp [swapRemove]

/-- Putting the last element in front of `dropLast` permutes the list. -/
theorem getLast_cons_dropLast_perm (l : List String) (hl : l ≠ []) :
    List.Perm ((l.getLast?.getD "") :: l.dropLast) l := by
  have h2 : l.getLast?.getD "" = l.getLast hl := by
    rw [List.getLast?_eq_getLast l hl]
    rfl
  rw [h2]
  have h1 : l.dropLast ++ [l.getLast hl] = l := List.dropLast_append_getLast hl
  calc
    List.Perm (l.getLast hl :: l.dropLast) (l.dropLast ++ [l.getLast hl]) :=
      (List.perm_append_singleton _ _).symm
    _ = l := h1

/-- `dropLast` walks past the head of a list with a non-empty tail. -/
theorem dropLast_cons_of_ne_nil (a : String) (l : List String) (hl : l ≠ []) :
    (a :: l).dropLast = a :: l.dropLast := by
  cases l with
  | nil => exact absurd rfl hl
  | cons b t => exact List.dropLast_cons₂

/-- Swap-removing index `i` removes exactly the element at `i` (up to
permutation). -/
theorem swapRemove_perm :
    ∀ (l : List String) (i : Nat) (h : i < l.length),
      List.Perm (l[i] :: swapRemove l i) l
  | [], i, h => by simp at h
  | a :: t, 0, h => by
    cases t with
    | nil => simp [swapRemove]
    | cons b t2 =>
      show List.Perm (a :: ((a :: b :: t2).set 0 ((a :: b :: t2).getLast?.getD "")).dropLast)
        (a :: b :: t2)
      rw [List.set_cons_zero, List.getLast?_cons_cons, List.dropLast_cons₂]
      exact (getLast_cons_dropLast_perm (b :: t2) (by simp)).cons a
  | a :: t, i + 1, h => by
    have hi : i < t.length := by simpa using h
    cases t with
    | nil => simp at hi
    | cons b t2 =>
      show List.Perm ((a :: b :: t2)[i + 1] ::
        ((a :: b :: t2).set (i + 1) ((a :: b :: t2).getLast?.getD "")).dropLast) (a :: b :: t2)
      rw [List.set_cons_succ, List.getLast?_cons_cons]
      have hset : ((b :: t2).set i ((b :: t2).getLast?.getD "")) ≠ [] := by
        have hls := List.length_set (b :: t2) i ((b :: t2).getLast?.getD "")
        intro hemp
        rw [hemp] at hls
        simp at hls
      rw [dropLast_cons_of_ne_nil a _ hset]
      have hel : (a :: b :: t2)[i + 1] = (b :: t2)[i] := by simp
      rw [hel]
      have hrec := swapRemove_perm (b :: t2) i hi
      exact (List.Perm.swap a ((b :: t2)[i]) _).trans (hrec.cons a)

/-- The inner loop never lengthens the table list. -/
theorem innerLoopGo_tables_length_le (fMap : String → List String) :
    ∀ (fuel : Nat) (tables : List String) (i : Nat) (ordered added : List String),
      (innerLoopGo fMap fuel tables i ordered added).tables.length ≤ tables.length := by
  intro fuel
  induction fuel with
  | zero => intro tables i o a; exact Nat.le_refl _
  | succ n ih =>
    intro tables i o a
    simp only [innerLoopGo]
    split
    · split
      · calc
          (innerLoopGo fMap n (swapRemove tables i) i _ _).tables.length ≤
              (swapRemove tables i).length := ih ..
          _ ≤ tables.length := by rw [swapRemove_length]; omega
      · exact ih ..
    · exact Nat.le_refl _

/-- The inner loop only moves tables from `tables` to `ordered`: their
concatenation is preserved up to permutation. -/
theorem innerLoopGo_perm (fMap : String → List String) :
    ∀ (fuel : Nat) (tables : List String) (i : Nat) (ordered added : List String),
      List.Perm ((innerLoopGo fMap fuel tables i ordered added).tables ++
        (innerLoopGo fMap fuel tables i ordered added).ordered) (tables ++ ordered) := by
  intro fuel
  induction fuel with
  | zero => intro t i o a; exact List.Perm.refl _
  | succ n ih =>
    intro t i o a
    simp only [innerLoopGo]
    split
    · next h =>
      split
      · refine (ih ..).trans ?_
        refine ((List.Perm.append_left (swapRemove t i)
          (List.perm_append_singleton t[i] o)).trans ?_)
        refine (List.perm_middle).trans ?_
        exact (swapRemove_perm t i h).append_right o
      · exact ih ..
    · exact List.Perm.refl _

/-- Throughout the inner loop, the `addedTables` key set and the
`dependencyOrderedTables` list have the same members. -/
theorem innerLoopGo_mem_inv (fMap : String → List String) :
    ∀ (fuel : Nat) (tables : List String) (i : Nat) (ordered added : List String),
      (∀ x : String, x ∈ added ↔ x ∈ ordered) →
      ∀ x : String, x ∈ (innerLoopGo fMap fuel tables i ordered added).added ↔
        x ∈ (innerLoopGo fMap fuel tables i ordered added).ordered := by
  intro fuel
  induction fuel with
  | zero => intro t i o a hinv; exact hinv
  | succ n ih =>
    intro t i o a hinv
    simp only [innerLoopGo]
    split
    · next h =>
      split
      · exact ih (swapRemove t i) i (o ++ [t[i]]) (t[i] :: a) (by
          intro x
          simp only [List.mem_cons, List.mem_append, List.mem_singleton, hinv x]
          tauto)
      · exact ih t (i + 1) o a hinv
    · exact hinv

/-- `depOrderedB` over a snoc: the new element may reference everything
already listed (or initially seen). -/
theorem depOrderedB_append (fMap : String → List String) :
    ∀ (l seen : List String) (x : String),
      depOrderedB fMap seen (l ++ [x]) =
        (depOrderedB fMap seen l &&
          (fMap x).all (fun d => decide (d ∈ l.reverse ++ seen))) := by
  intro l
  induction l with
  | nil =>
    intro seen x
    simp [depOrderedB]
  | cons y l ih =>
    intro seen x
    have hlist : (y :: l).reverse ++ seen = l.reverse ++ (y :: seen) := by
      simp
    rw [hlist]
    show ((fMap y).all _ && depOrderedB fMap (y :: seen) (l ++ [x])) = _
    rw [ih (y :: seen) x]
    show _ = (((fMap y).all _ && depOrderedB fMap (y :: seen) l) && _)
    rw [Bool.and_assoc]

/-- The inner loop preserves the invariant that `ordered` lists every table
after all the tables it references. -/
theorem innerLoopGo_ordered_inv (fMap : String → List String) :
    ∀ (fuel : Nat) (tables : List String) (i : Nat) (ordered added : List String),
      (∀ x : String, x ∈ added ↔ x ∈ ordered) →
      depOrderedB fMap [] ordered = true →
      depOrderedB fMap [] (innerLoopGo fMap fuel tables i ordered added).ordered = true := by
  intro fuel
  induction fuel with
  | zero => intro t i o a _ hord; exact hord
  | succ n ih =>
    intro t i o a hinv hord
    simp only [innerLoopGo]
    split
    · next h =>
      split
      · next hnd =>
        refine ih (swapRemove t i) i (o ++ [t[i]]) (t[i] :: a) ?_ ?_
        · intro x
          simp only [List.mem_cons, List.mem_append, List.mem_singleton, hinv x]
          tauto
        · rw [depOrderedB_append]
          rw [hord, Bool.true_and]
          rw [List.all_eq_true]
          intro d hd
          have hdadd : d ∈ a := by
            have hda := (List.all_eq_true.mp hnd) d hd
            simpa using hda
          simp only [List.append_nil, List.mem_reverse, decide_eq_true_eq]
          exact (hinv d).mp hdadd
      · exact ih t (i + 1) o a hinv hord
    · exact hord

/-- If a full pass of the inner loop removes nothing, the state is unchanged
and every remaining table still has an unresolved reference. -/
theorem innerLoopGo_stall (fMap : String → List String) :
    ∀ (fuel : Nat) (tables : List String) (i : Nat) (ordered added : List String),
      tables.length - i ≤ fuel →
      (innerLoopGo fMap fuel tables i ordered added).tables.length = tables.length →
      innerLoopGo fMap fuel tables i ordered added = ⟨tables, ordered, added⟩ ∧
        ∀ x ∈ tables.drop i, noDeps added (fMap x) = false := by
  intro fuel
  induction fuel with
  | zero =>
    intro t i o a hfuel _
    have hge : t.length ≤ i := by omega
    exact ⟨rfl, by rw [List.drop_eq_nil_of_le hge]; intro x hx; cases hx⟩
  | succ n ih =>
    intro t i o a hfuel hlen
    simp only [innerLoopGo] at hlen ⊢
    split at hlen
    · next h =>
      split at hlen
      · next hnd =>
        exfalso
        have hle := innerLoopGo_tables_length_le fMap n (swapRemove t i) i
          (o ++ [t[i]]) (t[i] :: a)
        rw [swapRemove_length] at hle
        omega
      · next hnd =>
        have hfuel2 : t.length - (i + 1) ≤ n := by omega
        have hres := ih t (i + 1) o a hfuel2 hlen
        rw [dif_pos h, if_neg hnd]
        refine ⟨hres.1, ?_⟩
        rw [List.drop_eq_getElem_cons h]
        intro x hx
        cases List.mem_cons.mp hx with
        | inl h1 =>
          rw [h1]
          exact Bool.not_eq_true _ ▸ hnd
        | inr h1 => exact hres.2 x h1
    · next h =>
      rw [dif_neg h]
      have hge : t.length ≤ i := by omega
      exact ⟨rfl, by rw [List.drop_eq_nil_of_le hge]; intro x hx; cases hx⟩

/-- The outer loop preserves the multiset of tables. -/
theorem outerLoopGo_perm (fMap : String → List String) :
    ∀ (fuel : Nat) (tables ordered added : List String),
      List.Perm ((outerLoopGo fMap fuel tables ordered added).tables ++
        (outerLoopGo fMap fuel tables ordered added).ordered) (tables ++ ordered) := by
  intro fuel
  induction fuel with
  | zero => intro t o a; exact List.Perm.refl _
  | succ n ih =>
    intro t o a
    simp only [outerLoopGo]
    split
    · exact List.Perm.refl _
    · split
      · exact innerLoopGo_perm fMap (t.length - 0) t 0 o a
      · exact (ih ..).trans (innerLoopGo_perm fMap (t.length - 0) t 0 o a)

/-- The outer loop preserves the added/ordered membership invariant. -/
theorem outerLoopGo_mem_inv (fMap : String → List String) :
    ∀ (fuel : Nat) (tables ordered added : List String),
      (∀ x : String, x ∈ added ↔ x ∈ ordered) →
      ∀ x : String, x ∈ (outerLoopGo fMap fuel tables ordered added).added ↔
        x ∈ (outerLoopGo fMap fuel tables ordered added).ordered := by
  intro fuel
  induction fuel with
  | zero => intro t o a hinv; exact hinv
  | succ n ih =>
    intro t o a hinv
    simp only [outerLoopGo]
    split
    · exact hinv
    · split
      · exact innerLoopGo_mem_inv fMap (t.length - 0) t 0 o a hinv
      · exact ih _ _ _ (innerLoopGo_mem_inv fMap (t.length - 0) t 0 o a hinv)

/-- The outer loop preserves the dependency ordering of `ordered`. -/
theorem outerLoopGo_ordered_inv (fMap : String → List String) :
    ∀ (fuel : Nat) (tables ordered added : List String),
      (∀ x : String, x ∈ added ↔ x ∈ ordered) →
      depOrderedB fMap [] ordered = true →
      depOrderedB fMap [] (outerLoopGo fMap fuel tables ordered added).ordered = true := by
  intro fuel
  induction fuel with
  | zero => intro t o a _ hord; exact hord
  | succ n ih =>
    intro t o a hinv hord
    simp only [outerLoopGo]
    split
    · exact hord
    · split
      · exact innerLoopGo_ordered_inv fMap (t.length - 0) t 0 o a hinv hord
      · exact ih _ _ _ (innerLoopGo_mem_inv fMap (t.length - 0) t 0 o a hinv)
          (innerLoopGo_ordered_inv fMap (t.length - 0) t 0 o a hinv hord)

/-- When the outer loop stops, either no tables are left or every leftover
table still fails the `noDeps` check against the final added set. -/
theorem outerLoopGo_final (fMap : String → List String) :
    ∀ (fuel : Nat) (tables ordered added : List String),
      tables.length ≤ fuel →
      (outerLoopGo fMap fuel tables ordered added).tables = [] ∨
        ∀ x ∈ (outerLoopGo fMap fuel tables ordered added).tables,
          noDeps (outerLoopGo fMap fuel tables ordered added).added (fMap x) = false := by
  intro fuel
  induction fuel with
  | zero =>
    intro t o a hfuel
    left
    have : t = [] := List.length_eq_zero.mp (by omega)
    simpa [outerLoopGo] using this
  | succ n ih =>
    intro t o a hfuel
    simp only [outerLoopGo]
    split
    · next h => exact Or.inl (List.length_eq_zero.mp h)
    · next h =>
      split
      · next heq =>
        simp only [innerLoop] at heq ⊢
        have hstall := innerLoopGo_stall fMap (t.length - 0) t 0 o a (Nat.le_refl _) heq.symm
        rw [hstall.1]
        right
        intro x hx
        exact hstall.2 x (by simpa using hx)
      · next hne =>
        simp only [innerLoop] at hne ⊢
        refine ih _ _ _ ?_
        have hle := innerLoopGo_tables_length_le fMap (t.length - 0) t 0 o a
        omega

/-- Extract an unresolved reference from a failed `noDeps` check. -/
theorem noDeps_false_exists {added deps : List String}
    (h : noDeps added deps = false) : ∃ d ∈ deps, d ∉ added := by
  have h1 := List.all_eq_false.mp h
  rcases h1 with ⟨d, hd, hdec⟩
  exact ⟨d, hd, by simpa using hdec⟩

/-- C8: the dependency-ordering loop of `TableNames` terminates (its Lean
embedding is a total function: the fuel spent is a bound on the loop's
decreasing measure), and the returned list is a permutation of the input
table list: no table is lost and none is duplicated, for any foreign-key
map including cyclic and self-referencing ones. -/
theorem tableNamesOrder_perm (fMap : String → List String) (tables : List String) :
    List.Perm (tableNamesOrder fMap tables) tables := by
  have h := outerLoopGo_perm fMap tables.length tables [] []
  rw [List.append_nil] at h
  simp only [tableNamesOrder, dependencyOrderTables]
  exact List.perm_append_comm.trans h

/-- C1: `TableNames` orders the tables so that every table emitted in the
dependency-ordered part references only tables that appear before it, the
leftover tables appended at the end each still reference a table that was
never resolved - under a map whose references stay inside the table list,
such a leftover reference is itself a leftover, so the leftovers are exactly
the tables caught in reference cycles - and the result is the ordered part
followed by the leftovers. -/
theorem tableNames_dependency_order (fMap : String → List String) (tables : List String)
    (hdeps : ∀ t ∈ tables, ∀ d ∈ fMap t, d ∈ tables) :
    depOrderedB fMap [] (dependencyOrderTables fMap tables).ordered = true ∧
    (∀ t ∈ (dependencyOrderTables fMap tables).tables, ∃ d ∈ fMap t,
      d ∉ (dependencyOrderTables fMap tables).ordered ∧
        d ∈ (dependencyOrderTables fMap tables).tables) ∧
    tableNamesOrder fMap tables =
      (dependencyOrderTables fMap tables).ordered ++
        (dependencyOrderTables fMap tables).tables := by
  have hinv0 : ∀ x : String, x ∈ ([] : List String) ↔ x ∈ ([] : List String) :=
    fun _ => Iff.rfl
  refine ⟨?_, ?_, rfl⟩
  · exact outerLoopGo_ordered_inv fMap tables.length tables [] [] hinv0 rfl
  · intro t ht
    simp only [dependencyOrderTables] at ht ⊢
    have hmem := outerLoopGo_mem_inv fMap tables.length tables [] [] hinv0
    have hperm := outerLoopGo_perm fMap tables.length tables [] []
    rw [List.append_nil] at hperm
    rcases outerLoopGo_final fMap tables.length tables [] [] (Nat.le_refl _) with h0 | hall
    · rw [h0] at ht
      cases ht
    · rcases noDeps_false_exists (hall t ht) with ⟨d, hd, hdna⟩
      have hdno : d ∉ (outerLoopGo fMap tables.length tables [] []).ordered :=
        fun hmem2 => hdna ((hmem d).mpr hmem2)
      refine ⟨d, hd, hdno, ?_⟩
      have htT : t ∈ tables := hperm.mem_iff.mp (List.mem_append_left _ ht)
      have hdT : d ∈ tables := hdeps t htT d hd
      rcases List.mem_append.mp (hperm.mem_iff.mpr hdT) with h1 | h1
      · exact h1
      · exact absurd h1 hdno

/-- Witness for C1: table `b` references `a`, table `c` references itself. -/
theorem tableNames_dependency_order_witness :
    depOrderedB (fun t => if t = "b" then ["a"] else if t = "c" then ["c"] else [])
      [] (dependencyOrderTables
        (fun t => if t = "b" then ["a"] else if t = "c" then ["c"] else [])
        ["a", "b", "c"]).ordered = true ∧
    (∀ t ∈ (dependencyOrderTables
        (fun t => if t = "b" then ["a"] else if t = "c" then ["c"] else [])
        ["a", "b", "c"]).tables,
      ∃ d ∈ (fun t => if t = "b" then ["a"] else if t = "c" then ["c"] else []) t,
        d ∉ (dependencyOrderTables
          (fun t => if t = "b" then ["a"] else if t = "c" then ["c"] else [])
          ["a", "b", "c"]).ordered ∧
          d ∈ (dependencyOrderTables
            (fun t => if t = "b" then ["a"] else if t = "c" then ["c"] else [])
            ["a", "b", "c"]).tables) ∧
    tableNamesOrder (fun t => if t = "b" then ["a"] else if t = "c" then ["c"] else [])
        ["a", "b", "c"] =
      (dependencyOrderTables
        (fun t => if t = "b" then ["a"] else if t = "c" then ["c"] else [])
        ["a", "b", "c"]).ordered ++
        (dependencyOrderTables
          (fun t => if t = "b" then ["a"] else if t = "c" then ["c"] else [])
          ["a", "b", "c"]).tables :=
  tableNames_dependency_order
    (fun t => if t = "b" then ["a"] else if t = "c" then ["c"] else [])
    ["a", "b", "c"] (by decide)

/-! ## C3 (amended): getIndexDefs is caller-sorted and order independent -/

/-- `any` is invariant under permutation. -/
theorem perm_any {α : Type} {l₁ l₂ : List α} (h : List.Perm l₁ l₂) (p : α → Bool) :
    l₁.any p = l₂.any p := by
  cases h1 : l₁.any p with
  | true =>
    rcases List.any_eq_true.mp h1 with ⟨x, hx, hpx⟩
    exact (List.any_eq_true.mpr ⟨x, h.mem_iff.mp hx, hpx⟩).symm
  | false =>
    cases h2 : l₂.any p with
    | true =>
      rcases List.any_eq_true.mp h2 with ⟨x, hx, hpx⟩
      have h3 := List.any_eq_true.mpr ⟨x, h.mem_iff.mpr hx, hpx⟩
      rw [h1] at h3
      exact h3
    | false => rfl

/-- With pairwise-distinct index names, the map-building fold only appends:
the Go map in insertion order is the row list keyed by name. -/
theorem foldl_upsert_eq :
    ∀ (rows : List indexRow) (acc : List (String × indexDef)),
      (acc.map Prod.fst ++ rows.map indexRow.name).Nodup →
      rows.foldl (fun m r => upsertIndexDef m r.name (initIndexDef r)) acc =
        acc ++ rows.map (fun r => (r.name, initIndexDef r)) := by
  intro rows
  induction rows with
  | nil => intro acc _; simp
  | cons r rows ih =>
    intro acc hnd
    have hnotin : r.name ∉ acc.map Prod.fst := by
      have h3 := (List.nodup_append.mp hnd).2.2
      intro ha
      exact h3 ha (by simp)
    have hany : acc.any (fun e => decide (e.1 = r.name)) = false := by
      cases h1 : acc.any (fun e => decide (e.1 = r.name)) with
      | false => rfl
      | true =>
        exfalso
        rcases List.any_eq_true.mp h1 with ⟨e, he, hpe⟩
        have : e.1 = r.name := by simpa using hpe
        exact hnotin (this ▸ List.mem_map_of_mem Prod.fst he)
    show List.foldl _ (upsertIndexDef acc r.name (initIndexDef r)) rows = _
    have hup : upsertIndexDef acc r.name (initIndexDef r) =
        acc ++ [(r.name, initIndexDef r)] := by
      simp only [upsertIndexDef, hany]
      rw [if_neg (by simp [hany])]
    rw [hup]
    have hnd2 : ((acc ++ [(r.name, initIndexDef r)]).map Prod.fst ++
        rows.map indexRow.name).Nodup := by
      simp only [List.map_append, List.map_cons, List.map_nil]
      have h4 : acc.map Prod.fst ++ [(r.name, initIndexDef r).1] ++ rows.map indexRow.name =
          acc.map Prod.fst ++ (r.name :: rows.map indexRow.name) := by simp
      rw [h4]
      simpa using hnd
    rw [ih (acc ++ [(r.name, initIndexDef r)]) hnd2]
    simp

/-- Applying the column rows to permuted maps yields both-none or
permuted results. -/
theorem applyIndexColRows_perm :
    ∀ (crs : List indexColRow) (m₁ m₂ : List (String × indexDef)),
      List.Perm m₁ m₂ →
      (applyIndexColRows m₁ crs = none ∧ applyIndexColRows m₂ crs = none) ∨
      (∃ n₁ n₂, applyIndexColRows m₁ crs = some n₁ ∧ applyIndexColRows m₂ crs = some n₂ ∧
        List.Perm n₁ n₂) := by
  intro crs
  induction crs with
  | nil => intro m₁ m₂ h; exact Or.inr ⟨m₁, m₂, rfl, rfl, h⟩
  | cons r crs ih =>
    intro m₁ m₂ h
    have hany := perm_any h (fun e => decide (e.1 = r.indexName))
    cases h2 : m₂.any (fun e => decide (e.1 = r.indexName)) with
    | false =>
      left
      rw [h2] at hany
      simp only [applyIndexColRows, hany, h2]
      exact ⟨rfl, rfl⟩
    | true =>
      rw [h2] at hany
      have hrec := ih (m₁.map (fun e => if e.1 = r.indexName then
          (e.1, addIndexColumn e.2 r) else e))
        (m₂.map (fun e => if e.1 = r.indexName then (e.1, addIndexColumn e.2 r) else e))
        (h.map _)
      simpa only [applyIndexColRows, hany, h2, if_true] using hrec

/-- The second scan does not change the key list of the map. -/
theorem applyIndexColRows_keys :
    ∀ (crs : List indexColRow) (m n : List (String × indexDef)),
      applyIndexColRows m crs = some n → n.map Prod.fst = m.map Prod.fst := by
  intro crs
  induction crs with
  | nil =>
    intro m n h
    cases h
    rfl
  | cons r crs ih =>
    intro m n h
    simp only [applyIndexColRows] at h
    split at h
    · have hkeys := ih _ n h
      rw [hkeys, List.map_map]
      exact List.map_congr_left (fun e _ => by
        show (if e.1 = r.indexName then (e.1, addIndexColumn e.2 r) else e).1 = e.1
        split <;> rfl)
    · cases h

/-- `addIndexColumn` never changes the index name. -/
theorem addIndexColumn_name (d : indexDef) (r : indexColRow) :
    (addIndexColumn d r).name = d.name := by
  simp only [addIndexColumn]
  split <;> rfl

/-- The second scan preserves "every entry's stored name is its key". -/
theorem applyIndexColRows_nameInv :
    ∀ (crs : List indexColRow) (m n : List (String × indexDef)),
      (∀ e ∈ m, (e : String × indexDef).2.name = e.1) →
      applyIndexColRows m crs = some n → ∀ e ∈ n, e.2.name = e.1 := by
  intro crs
  induction crs with
  | nil =>
    intro m n hinv h
    cases h
    exact hinv
  | cons r crs ih =>
    intro m n hinv h
    simp only [applyIndexColRows] at h
    split at h
    · refine ih _ n ?_ h
      intro e he
      rcases List.mem_map.mp he with ⟨e0, he0, rfl⟩
      show (if e0.1 = r.indexName then (e0.1, addIndexColumn e0.2 r) else e0).2.name = _
      split
      · simp [addIndexColumn_name, hinv e0 he0]
      · exact hinv e0 he0
    · cases h

/-- Membership in an insertion-sorted list. -/
theorem mem_insertByName :
    ∀ (l : List indexDef) (d x : indexDef), x ∈ insertByName d l ↔ x = d ∨ x ∈ l := by
  intro l
  induction l with
  | nil => intro d x; simp [insertByName]
  | cons e rest ih =>
    intro d x
    simp only [insertByName]
    split
    · simp
    · simp only [List.mem_cons, ih d x]
      tauto

/-- Insertion permutes with cons. -/
theorem insertByName_perm :
    ∀ (l : List indexDef) (d : indexDef), List.Perm (insertByName d l) (d :: l) := by
  intro l
  induction l with
  | nil => intro d; exact List.Perm.refl _
  | cons e rest ih =>
    intro d
    simp only [insertByName]
    split
    · exact List.Perm.refl _
    · exact ((ih d).cons e).trans (List.Perm.swap d e rest)

/-- Insertion preserves sortedness by name. -/
theorem pairwise_insertByName :
    ∀ (l : List indexDef) (d : indexDef),
      List.Pairwise (fun a b : indexDef => a.name ≤ b.name) l →
      List.Pairwise (fun a b : indexDef => a.name ≤ b.name) (insertByName d l) := by
  intro l
  induction l with
  | nil => intro d _; simp [insertByName]
  | cons e rest ih =>
    intro d hp
    rcases List.pairwise_cons.mp hp with ⟨he, hrest⟩
    simp only [insertByName]
    split
    · next hlt =>
      refine List.pairwise_cons.mpr ⟨?_, hp⟩
      intro x hx
      cases List.mem_cons.mp hx with
      | inl h1 => rw [h1]; exact le_of_lt hlt
      | inr h1 => exact le_trans (le_of_lt hlt) (he x h1)
    · next hnlt =>
      refine List.pairwise_cons.mpr ⟨?_, ih d hrest⟩
      intro x hx
      cases (mem_insertByName rest d x).mp hx with
      | inl h1 => rw [h1]; exact le_of_not_lt hnlt
      | inr h1 => exact he x h1

/-- The sort permutes its input. -/
theorem sortByName_perm : ∀ (l : List indexDef), List.Perm (sortByName l) l := by
  intro l
  induction l with
  | nil => exact List.Perm.refl _
  | cons e rest ih =>
    show List.Perm (insertByName e (sortByName rest)) (e :: rest)
    exact (insertByName_perm (sortByName rest) e).trans (ih.cons e)

/-- The sort's output is sorted by name. -/
theorem sortByName_pairwise (l : List indexDef) :
    List.Pairwise (fun a b : indexDef => a.name ≤ b.name) (sortByName l) := by
  induction l with
  | nil => simp [sortByName]
  | cons e rest ih => exact pairwise_insertByName (sortByName rest) e ih

/-- Two permuted def lists with pairwise-distinct names sort identically. -/
theorem sortByName_eq_of_perm (v₁ v₂ : List indexDef) (hperm : List.Perm v₁ v₂)
    (hnodup : (v₁.map indexDef.name).Nodup) : sortByName v₁ = sortByName v₂ := by
  haveI : IsAntisymm indexDef (fun a b : indexDef => a.name < b.name) :=
    ⟨fun a b h1 h2 => absurd (lt_trans h1 h2) (lt_irrefl _)⟩
  have hp : List.Perm (sortByName v₁) (sortByName v₂) :=
    ((sortByName_perm v₁).trans hperm).trans (sortByName_perm v₂).symm
  have hnodup₁ : ((sortByName v₁).map indexDef.name).Nodup :=
    (((sortByName_perm v₁).map indexDef.name).nodup_iff).mpr hnodup
  have hnodup₂ : ((sortByName v₂).map indexDef.name).Nodup :=
    ((hp.map indexDef.name).nodup_iff).mp hnodup₁
  have hs₁ : List.Pairwise (fun a b : indexDef => a.name < b.name) (sortByName v₁) :=
    ((sortByName_pairwise v₁).and (List.pairwise_map.mp hnodup₁)).imp
      (fun h => lt_of_le_of_ne h.1 h.2)
  have hs₂ : List.Pairwise (fun a b : indexDef => a.name < b.name) (sortByName v₂) :=
    ((sortByName_pairwise v₂).and (List.pairwise_map.mp hnodup₂)).imp
      (fun h => lt_of_le_of_ne h.1 h.2)
  exact List.eq_of_perm_of_sorted hp hs₁ hs₂

/-- C3 (amended): of the adapter's query methods only the index listing is
caller-sorted: `getIndexDefs` sorts by index name before returning, so for
index names pairwise distinct its value does not depend on the order in
which the backend returns the index rows; `Views` and `Triggers` return
rows in backend order. -/
theorem getIndexDefs_row_order_independent (rows₁ rows₂ : List indexRow)
    (colRows : List indexColRow) (hperm : List.Perm rows₁ rows₂)
    (hnodup : (rows₁.map indexRow.name).Nodup) :
    getIndexDefs rows₁ colRows = getIndexDefs rows₂ colRows := by
  have hnodup₂ : (rows₂.map indexRow.name).Nodup :=
    ((hperm.map indexRow.name).nodup_iff).mp hnodup
  have hm₁ : buildIndexDefMap rows₁ = rows₁.map (fun r => (r.name, initIndexDef r)) := by
    have h := foldl_upsert_eq rows₁ [] (by simpa using hnodup)
    simpa [buildIndexDefMap] using h
  have hm₂ : buildIndexDefMap rows₂ = rows₂.map (fun r => (r.name, initIndexDef r)) := by
    have h := foldl_upsert_eq rows₂ [] (by simpa using hnodup₂)
    simpa [buildIndexDefMap] using h
  have hmperm : List.Perm (buildIndexDefMap rows₁) (buildIndexDefMap rows₂) := by
    rw [hm₁, hm₂]
    exact hperm.map _
  have hkeys₁ : ((buildIndexDefMap rows₁).map Prod.fst).Nodup := by
    rw [hm₁, List.map_map]
    simpa using hnodup
  have hinv₁ : ∀ e ∈ buildIndexDefMap rows₁, (e : String × indexDef).2.name = e.1 := by
    rw [hm₁]
    intro e he
    rcases List.mem_map.mp he with ⟨r, _, rfl⟩
    rfl
  rcases applyIndexColRows_perm colRows _ _ hmperm with ⟨hn₁, hn₂⟩ | ⟨n₁, n₂, hn₁, hn₂, hnp⟩
  · simp [getIndexDefs, hn₁, hn₂]
  · simp only [getIndexDefs, hn₁, hn₂, Option.map_some']
    congr 1
    refine sortByName_eq_of_perm _ _ (hnp.map _) ?_
    have hnames : (n₁.map (fun e => (e : String × indexDef).2)).map indexDef.name =
        n₁.map Prod.fst := by
      rw [List.map_map]
      exact List.map_congr_left (fun e he =>
        applyIndexColRows_nameInv colRows _ n₁ hinv₁ hn₁ e he)
    rw [hnames, applyIndexColRows_keys colRows _ n₁ hn₁]
    exact hkeys₁

/-- Witness for C3 (amended): two index rows in both orders. -/
theorem getIndexDefs_row_order_independent_witness :
    getIndexDefs
      [⟨"i1", false, false, "NONCLUSTERED", false, "0", false, false, false, false, false⟩,
       ⟨"i2", true, true, "CLUSTERED", false, "0", false, false, false, false, false⟩] [] =
    getIndexDefs
      [⟨"i2", true, true, "CLUSTERED", false, "0", false, false, false, false, false⟩,
       ⟨"i1", false, false, "NONCLUSTERED", false, "0", false, false, false, false, false⟩]
      [] :=
  getIndexDefs_row_order_independent
    [⟨"i1", false, false, "NONCLUSTERED", false, "0", false, false, false, false, false⟩,
     ⟨"i2", true, true, "CLUSTERED", false, "0", false, false, false, false, false⟩]
    [⟨"i2", true, true, "CLUSTERED", false, "0", false, false, false, false, false⟩,
     ⟨"i1", false, false, "NONCLUSTERED", false, "0", false, false, false, false, false⟩]
    [] (by decide) (by decide)
